import Mathlib

/-!
Shallow embedding of `src/project/main.py`, a batch text-normalization
pipeline over tabular quiz data.  Cells are modelled as `List Char`
(Python unicode strings), a table as an ordered list of named columns,
and each `DataFrameTransformer` as a function `Table → Table`.
-/

/-- A cell of the table: the character sequence of a Python string. -/
abbrev Cell := List Char

/-- A table: ordered named columns, each an ordered list of text cells
(the in-memory `pd.DataFrame` of string columns). -/
abbrev Table := List (String × List Cell)

/-- First-match association lookup, as a Python `dict` read. -/
def lookupA {α β : Type} [DecidableEq α] (k : α) : List (α × β) → Option β
  | [] => none
  | (a, b) :: rest => if a = k then some b else lookupA k rest

/-- First pair whose second component matches, used to read a case table
in the value-to-key direction. -/
def lookupSnd {α β : Type} [DecidableEq β] (k : β) : List (α × β) → Option α
  | [] => none
  | (a, b) :: rest => if b = k then some a else lookupSnd k rest

theorem lookupA_mem {α β : Type} [DecidableEq α] {k : α} {v : β} :
    ∀ {l : List (α × β)}, lookupA k l = some v → (k, v) ∈ l := by
  intro l
  induction l with
  | nil => intro h; simp [lookupA] at h
  | cons p rest ih =>
    intro h
    obtain ⟨a, b⟩ := p
    by_cases hak : a = k
    · subst hak
      simp [lookupA] at h
      simp [h]
    · simp [lookupA, hak] at h
      exact List.mem_cons_of_mem _ (ih h)

theorem lookupSnd_mem {α β : Type} [DecidableEq β] {k : β} {v : α} :
    ∀ {l : List (α × β)}, lookupSnd k l = some v → (v, k) ∈ l := by
  intro l
  induction l with
  | nil => intro h; simp [lookupSnd] at h
  | cons p rest ih =>
    intro h
    obtain ⟨a, b⟩ := p
    by_cases hbk : b = k
    · subst hbk
      simp [lookupSnd] at h
      simp [h]
    · simp [lookupSnd, hbk] at h
      exact List.mem_cons_of_mem _ (ih h)

/-! ## SerbianCyrillicToLatinTransformer -/

/-- The `cyrillic_to_latin` dict of
`SerbianCyrillicToLatinTransformer._serbian_cyrillic_to_latin`. -/
def cyrillicToLatin : List (Char × Cell) :=
  [('а', ['a']), ('б', ['b']), ('в', ['v']), ('г', ['g']), ('д', ['d']),
   ('ђ', ['đ']), ('е', ['e']), ('ж', ['ž']), ('з', ['z']), ('и', ['i']),
   ('ј', ['j']), ('к', ['k']), ('л', ['l']), ('љ', ['l', 'j']), ('м', ['m']),
   ('н', ['n']), ('њ', ['n', 'j']), ('о', ['o']), ('п', ['p']), ('р', ['r']),
   ('с', ['s']), ('т', ['t']), ('ћ', ['ć']), ('у', ['u']), ('ф', ['f']),
   ('х', ['h']), ('ц', ['c']), ('ч', ['č']), ('џ', ['d', 'ž']), ('ш', ['š']),
   ('А', ['A']), ('Б', ['B']), ('В', ['V']), ('Г', ['G']), ('Д', ['D']),
   ('Ђ', ['Đ']), ('Е', ['E']), ('Ж', ['Ž']), ('З', ['Z']), ('И', ['I']),
   ('Ј', ['J']), ('К', ['K']), ('Л', ['L']), ('Љ', ['L', 'j']), ('М', ['M']),
   ('Н', ['N']), ('Њ', ['N', 'j']), ('О', ['O']), ('П', ['P']), ('Р', ['R']),
   ('С', ['S']), ('Т', ['T']), ('Ћ', ['Ć']), ('У', ['U']), ('Ф', ['F']),
   ('Х', ['H']), ('Ц', ['C']), ('Ч', ['Č']), ('Џ', ['D', 'ž']), ('Ш', ['Š'])]

/-- `cyrillic_to_latin.get(char, char)`: one character of the
transliteration, defaulting to the character itself. -/
def translitChar (c : Char) : Cell :=
  (lookupA c cyrillicToLatin).getD [c]

/-- `_serbian_cyrillic_to_latin`: join of the per-character images. -/
def serbianCyrillicToLatin (text : Cell) : Cell :=
  text.flatMap translitChar

theorem translitChar_of_none {c : Char} (h : lookupA c cyrillicToLatin = none) :
    translitChar c = [c] := by
  simp [translitChar, h]

/-- Every character of every value of the transliteration table is
outside the table's key set (Latin output is never re-mapped). -/
theorem cyrillic_values_not_keys :
    ∀ p ∈ cyrillicToLatin, ∀ c ∈ p.2, lookupA c cyrillicToLatin = none := by
  decide

theorem serbianCyrillicToLatin_translitChar (c : Char) :
    serbianCyrillicToLatin (translitChar c) = translitChar c := by
  unfold serbianCyrillicToLatin
  cases h : lookupA c cyrillicToLatin with
  | none =>
    simp [translitChar, h]
  | some v =>
    have hv : translitChar c = v := by simp [translitChar, h]
    rw [hv]
    have hmem := lookupA_mem h
    have hall : ∀ d ∈ v, lookupA d cyrillicToLatin = none :=
      cyrillic_values_not_keys (c, v) hmem
    clear hv hmem h
    induction v with
    | nil => simp
    | cons d rest ih =>
      have hd : lookupA d cyrillicToLatin = none := hall d (by simp)
      have hrest : ∀ e ∈ rest, lookupA e cyrillicToLatin = none := by
        intro e he; exact hall e (List.mem_cons_of_mem _ he)
      simp [translitChar, hd, ih hrest]

theorem serbianCyrillicToLatin_idem (text : Cell) :
    serbianCyrillicToLatin (serbianCyrillicToLatin text) =
      serbianCyrillicToLatin text := by
  induction text with
  | nil => rfl
  | cons c rest ih =>
    have hstep : serbianCyrillicToLatin (c :: rest) =
        translitChar c ++ serbianCyrillicToLatin rest := by
      simp [serbianCyrillicToLatin]
    rw [hstep]
    have happ : ∀ a b : Cell, serbianCyrillicToLatin (a ++ b) =
        serbianCyrillicToLatin a ++ serbianCyrillicToLatin b := by
      intro a b; simp [serbianCyrillicToLatin]
    rw [happ, serbianCyrillicToLatin_translitChar, ih]

theorem serbianCyrillicToLatin_of_no_keys {text : Cell}
    (h : ∀ c ∈ text, lookupA c cyrillicToLatin = none) :
    serbianCyrillicToLatin text = text := by
  induction text with
  | nil => rfl
  | cons c rest ih =>
    have hc := h c (by simp)
    have hrest : ∀ d ∈ rest, lookupA d cyrillicToLatin = none := by
      intro d hd; exact h d (List.mem_cons_of_mem _ hd)
    simp [serbianCyrillicToLatin, translitChar, hc] at *
    exact ih hrest

/-! ## CapitalizeTransformer

Python string casing (`str.capitalize`, which upper-cases the first
character and lower-cases the rest) is a built-in external to the
repository.  It is modelled by a finite case-pair table restricted to
the alphabet repertoire this program processes: ASCII letters, the
Serbian Latin letters with diacritics, and the Serbian Cyrillic
alphabet.  Characters outside the table are caseless and map to
themselves, exactly as in Python. -/

/-- Case pairs `(lowercase, uppercase)` of the modelled repertoire. -/
def caseTable : List (Char × Char) :=
  [('a', 'A'), ('b', 'B'), ('c', 'C'), ('d', 'D'), ('e', 'E'), ('f', 'F'),
   ('g', 'G'), ('h', 'H'), ('i', 'I'), ('j', 'J'), ('k', 'K'), ('l', 'L'),
   ('m', 'M'), ('n', 'N'), ('o', 'O'), ('p', 'P'), ('q', 'Q'), ('r', 'R'),
   ('s', 'S'), ('t', 'T'), ('u', 'U'), ('v', 'V'), ('w', 'W'), ('x', 'X'),
   ('y', 'Y'), ('z', 'Z'),
   ('đ', 'Đ'), ('ž', 'Ž'), ('ć', 'Ć'), ('č', 'Č'), ('š', 'Š'),
   ('а', 'А'), ('б', 'Б'), ('в', 'В'), ('г', 'Г'), ('д', 'Д'), ('ђ', 'Ђ'),
   ('е', 'Е'), ('ж', 'Ж'), ('з', 'З'), ('и', 'И'), ('ј', 'Ј'), ('к', 'К'),
   ('л', 'Л'), ('љ', 'Љ'), ('м', 'М'), ('н', 'Н'), ('њ', 'Њ'), ('о', 'О'),
   ('п', 'П'), ('р', 'Р'), ('с', 'С'), ('т', 'Т'), ('ћ', 'Ћ'), ('у', 'У'),
   ('ф', 'Ф'), ('х', 'Х'), ('ц', 'Ц'), ('ч', 'Ч'), ('џ', 'Џ'), ('ш', 'Ш')]

/-- Upper-case one character (identity outside the repertoire). -/
def upChar (c : Char) : Char :=
  (lookupA c caseTable).getD c

/-- Lower-case one character (identity outside the repertoire). -/
def lowChar (c : Char) : Char :=
  (lookupSnd c caseTable).getD c

/-- Python `str.capitalize()`: first character upper-cased, the rest
lower-cased; the empty string maps to itself. -/
def pyCapitalize : Cell → Cell
  | [] => []
  | c :: rest => upChar c :: rest.map lowChar

/-- Python `text.split(". ")`: greedy leftmost-first split on the
two-character separator, keeping empty segments. -/
def splitDS : Cell → List Cell
  | [] => [[]]
  | '.' :: ' ' :: rest => [] :: splitDS rest
  | c :: rest => (splitDS rest).modifyHead (fun s => c :: s)

theorem splitDS_sep (t : Cell) : splitDS ('.' :: ' ' :: t) = [] :: splitDS t :=
  rfl

theorem splitDS_cons {c : Char} {t : Cell}
    (h : ¬(c = '.' ∧ t.head? = some ' ')) :
    splitDS (c :: t) = (splitDS t).modifyHead (fun s => c :: s) := by
  rw [splitDS.eq_def]
  split
  · rename_i heq; cases heq
  · rename_i rest heq
    injection heq with h1 h2
    subst h1
    exact absurd ⟨rfl, by rw [h2]; rfl⟩ h
  · rename_i c2 rest hne heq
    injection heq with h1 h2
    subst h1; subst h2
    rfl

/-- Python `". ".join(segments)`. -/
def joinDS : List Cell → Cell
  | [] => []
  | [s] => s
  | s :: ss => s ++ '.' :: ' ' :: joinDS ss

/-- `CapitalizeTransformer._correct`: capitalize the whole text, split
the result on `". "`, capitalize each segment, join back with `". "`. -/
def capitalizeCorrect (sentence : Cell) : Cell :=
  joinDS ((splitDS (pyCapitalize sentence)).map pyCapitalize)

/-- Whether the text contains the separator `". "`. -/
def hasDS : Cell → Bool
  | [] => false
  | c :: rest => (c == '.' && rest.head? == some ' ') || hasDS rest

theorem caseTable_up_not_key : ∀ p ∈ caseTable, lookupA p.2 caseTable = none := by
  decide

theorem caseTable_low_not_val : ∀ p ∈ caseTable, lookupSnd p.1 caseTable = none := by
  decide

theorem caseTable_snd_inv : ∀ p ∈ caseTable, lookupSnd p.2 caseTable = some p.1 := by
  decide

theorem caseTable_fst_inv : ∀ p ∈ caseTable, lookupA p.1 caseTable = some p.2 := by
  decide

theorem caseTable_no_punct :
    ∀ p ∈ caseTable, p.1 ≠ '.' ∧ p.2 ≠ '.' ∧ p.1 ≠ ' ' ∧ p.2 ≠ ' ' := by
  decide

theorem upChar_upChar (c : Char) : upChar (upChar c) = upChar c := by
  cases h : lookupA c caseTable with
  | none => simp [upChar, h]
  | some u =>
    have hu : lookupA u caseTable = none :=
      caseTable_up_not_key (c, u) (lookupA_mem h)
    simp [upChar, h, hu]

theorem lowChar_lowChar (c : Char) : lowChar (lowChar c) = lowChar c := by
  cases h : lookupSnd c caseTable with
  | none => simp [lowChar, h]
  | some l =>
    have hl : lookupSnd l caseTable = none :=
      caseTable_low_not_val (l, c) (lookupSnd_mem h)
    simp [lowChar, h, hl]

theorem upChar_lowChar_upChar (c : Char) :
    upChar (lowChar (upChar c)) = upChar c := by
  cases h : lookupA c caseTable with
  | some u =>
    have hsnd : lookupSnd u caseTable = some c :=
      caseTable_snd_inv (c, u) (lookupA_mem h)
    simp [upChar, lowChar, h, hsnd]
  | none =>
    cases h2 : lookupSnd c caseTable with
    | some l =>
      have hfst : lookupA l caseTable = some c :=
        caseTable_fst_inv (l, c) (lookupSnd_mem h2)
      simp [upChar, lowChar, h, h2, hfst]
    | none => simp [upChar, lowChar, h, h2]

theorem upChar_eq_dot (c : Char) : upChar c = '.' ↔ c = '.' := by
  constructor
  · intro h
    cases hl : lookupA c caseTable with
    | none => simpa [upChar, hl] using h
    | some u =>
      have hne := (caseTable_no_punct (c, u) (lookupA_mem hl)).2.1
      simp [upChar, hl] at h
      exact absurd h hne
  · intro h; subst h; decide

theorem lowChar_eq_dot (c : Char) : lowChar c = '.' ↔ c = '.' := by
  constructor
  · intro h
    cases hl : lookupSnd c caseTable with
    | none => simpa [lowChar, hl] using h
    | some l =>
      have hne := (caseTable_no_punct (l, c) (lookupSnd_mem hl)).1
      simp [lowChar, hl] at h
      exact absurd h hne
  · intro h; subst h; decide

theorem lowChar_eq_space (c : Char) : lowChar c = ' ' ↔ c = ' ' := by
  constructor
  · intro h
    cases hl : lookupSnd c caseTable with
    | none => simpa [lowChar, hl] using h
    | some l =>
      have hne := (caseTable_no_punct (l, c) (lookupSnd_mem hl)).2.2.1
      simp [lowChar, hl] at h
      exact absurd h hne
  · intro h; subst h; decide

theorem beq_dot_lowChar (c : Char) : (lowChar c == '.') = (c == '.') := by
  rw [Bool.eq_iff_iff]
  simp [lowChar_eq_dot]

theorem beq_dot_upChar (c : Char) : (upChar c == '.') = (c == '.') := by
  rw [Bool.eq_iff_iff]
  simp [upChar_eq_dot]

theorem head_map_lowChar_space (rest : Cell) :
    ((rest.map lowChar).head? == some ' ') = (rest.head? == some ' ') := by
  cases rest with
  | nil => rfl
  | cons d t =>
    simp only [List.map_cons, List.head?_cons]
    rw [Bool.eq_iff_iff]
    simp [lowChar_eq_space]

theorem hasDS_map_lowChar (s : Cell) : hasDS (s.map lowChar) = hasDS s := by
  induction s with
  | nil => rfl
  | cons c rest ih =>
    simp only [List.map_cons, hasDS]
    rw [beq_dot_lowChar, head_map_lowChar_space, ih]

theorem hasDS_pyCapitalize (s : Cell) : hasDS (pyCapitalize s) = hasDS s := by
  cases s with
  | nil => rfl
  | cons c rest =>
    simp only [pyCapitalize, hasDS]
    rw [beq_dot_upChar, head_map_lowChar_space, hasDS_map_lowChar]

theorem splitDS_ne_nil (l : Cell) : splitDS l ≠ [] := by
  induction l with
  | nil => simp [splitDS]
  | cons c rest ih =>
    by_cases h : c = '.' ∧ rest.head? = some ' '
    · obtain ⟨hc, hh⟩ := h
      subst hc
      cases rest with
      | nil => simp at hh
      | cons d t =>
        simp only [List.head?_cons, Option.some.injEq] at hh
        subst hh
        rw [splitDS_sep]
        simp
    · rw [splitDS_cons h]
      cases hs : splitDS rest with
      | nil => exact absurd hs ih
      | cons s ss => simp

theorem splitDS_head_head? (l : Cell) :
    ((splitDS l).headD []).head? = none ∨
      ((splitDS l).headD []).head? = l.head? := by
  cases l with
  | nil => left; rfl
  | cons c rest =>
    by_cases h : c = '.' ∧ rest.head? = some ' '
    · obtain ⟨hc, hh⟩ := h
      subst hc
      cases rest with
      | nil => simp at hh
      | cons d t =>
        simp only [List.head?_cons, Option.some.injEq] at hh
        subst hh
        rw [splitDS_sep]
        left; rfl
    · rw [splitDS_cons h]
      cases hs : splitDS rest with
      | nil => exact absurd hs (splitDS_ne_nil rest)
      | cons s ss => right; simp

theorem splitDS_no_sep (l : Cell) : ∀ s ∈ splitDS l, hasDS s = false := by
  induction l using splitDS.induct with
  | case1 =>
    intro s hs
    simp [splitDS] at hs
    simp [hs, hasDS]
  | case2 t ih =>
    rw [splitDS_sep]
    intro s hs
    rcases List.mem_cons.mp hs with h1 | h2
    · simp [h1, hasDS]
    · exact ih s h2
  | case3 c rest h ih =>
    have hcond : ¬(c = '.' ∧ rest.head? = some ' ') := by
      intro hcon
      cases rest with
      | nil => simp at hcon
      | cons d t =>
        simp only [List.head?_cons, Option.some.injEq] at hcon
        exact h t hcon.1 (by rw [hcon.2])
    rw [splitDS_cons hcond]
    cases hs0 : splitDS rest with
    | nil => exact absurd hs0 (splitDS_ne_nil rest)
    | cons s0 ss =>
      intro s hs
      simp only [List.modifyHead_cons] at hs
      rcases List.mem_cons.mp hs with h1 | h2
      · subst h1
        have hs0f : hasDS s0 = false := ih s0 (by rw [hs0]; simp)
        simp only [hasDS, hs0f, Bool.or_false]
        by_cases hc : c = '.'
        · subst hc
          have hhead := splitDS_head_head? rest
          rw [hs0] at hhead
          simp only [List.headD_cons] at hhead
          have hne : s0.head? ≠ some ' ' := by
            rcases hhead with h3 | h3
            · rw [h3]; simp
            · rw [h3]
              intro hcon
              exact hcond ⟨rfl, hcon⟩
          simp [hne]
        · simp [hc]
      · exact ih s (by rw [hs0]; simp [h2])

theorem splitDS_of_no_sep {s : Cell} (h : hasDS s = false) : splitDS s = [s] := by
  induction s with
  | nil => rfl
  | cons c rest ih =>
    simp only [hasDS, Bool.or_eq_false_iff, Bool.and_eq_false_iff] at h
    obtain ⟨h1, h2⟩ := h
    have hcond : ¬(c = '.' ∧ rest.head? = some ' ') := by
      intro hcon
      rcases h1 with ha | hb
      · simp [hcon.1] at ha
      · simp [hcon.2] at hb
    rw [splitDS_cons hcond, ih h2]
    rfl

theorem splitDS_append_sep {s : Cell} (t : Cell) (h : hasDS s = false) :
    splitDS (s ++ '.' :: ' ' :: t) = s :: splitDS t := by
  induction s with
  | nil => simpa using splitDS_sep t
  | cons c cs ih =>
    simp only [hasDS, Bool.or_eq_false_iff, Bool.and_eq_false_iff] at h
    obtain ⟨h1, h2⟩ := h
    have hcond : ¬(c = '.' ∧ (cs ++ '.' :: ' ' :: t).head? = some ' ') := by
      intro hcon
      cases cs with
      | nil => simp at hcon
      | cons d cs2 =>
        simp only [List.cons_append, List.head?_cons] at hcon
        rcases h1 with ha | hb
        · simp [hcon.1] at ha
        · simp only [List.head?_cons] at hb
          rw [hcon.2] at hb
          simp at hb
    rw [List.cons_append, splitDS_cons hcond, ih h2]
    rfl

theorem splitDS_joinDS {segs : List Cell} (hne : segs ≠ [])
    (h : ∀ s ∈ segs, hasDS s = false) : splitDS (joinDS segs) = segs := by
  induction segs with
  | nil => exact absurd rfl hne
  | cons s ss ih =>
    cases ss with
    | nil =>
      show splitDS (joinDS [s]) = [s]
      exact splitDS_of_no_sep (h s (by simp))
    | cons s2 ss2 =>
      have hjoin : joinDS (s :: s2 :: ss2) = s ++ '.' :: ' ' :: joinDS (s2 :: ss2) :=
        rfl
      rw [hjoin, splitDS_append_sep _ (h s (by simp))]
      have hrest : ∀ u ∈ s2 :: ss2, hasDS u = false := by
        intro u hu
        exact h u (List.mem_cons_of_mem _ hu)
      rw [ih (by simp) hrest]

theorem joinDS_cons2 (s s2 : Cell) (ss : List Cell) :
    joinDS (s :: s2 :: ss) = s ++ '.' :: ' ' :: joinDS (s2 :: ss) :=
  rfl

theorem lowChar_dot : lowChar '.' = '.' := by decide

theorem lowChar_space : lowChar ' ' = ' ' := by decide

theorem map_lowChar_joinDS (zs : List Cell) :
    (joinDS zs).map lowChar = joinDS (zs.map (List.map lowChar)) := by
  induction zs with
  | nil => rfl
  | cons s ss ih =>
    cases ss with
    | nil => rfl
    | cons s2 ss2 =>
      rw [joinDS_cons2]
      calc (s ++ '.' :: ' ' :: joinDS (s2 :: ss2)).map lowChar
          = s.map lowChar ++ '.' :: ' ' :: (joinDS (s2 :: ss2)).map lowChar := by
            simp [lowChar_dot, lowChar_space]
        _ = s.map lowChar ++
            '.' :: ' ' :: joinDS ((s2 :: ss2).map (List.map lowChar)) := by
            rw [ih]
        _ = joinDS ((s :: s2 :: ss2).map (List.map lowChar)) := by
            simp only [List.map_cons]
            rw [joinDS_cons2]

theorem pyCapitalize_joinDS (x : Cell) (xs : List Cell) :
    pyCapitalize (joinDS (x :: xs)) =
      joinDS (pyCapitalize x :: xs.map (List.map lowChar)) := by
  cases xs with
  | nil => rfl
  | cons y ys =>
    rw [joinDS_cons2]
    have hstep : pyCapitalize (x ++ '.' :: ' ' :: joinDS (y :: ys)) =
        pyCapitalize x ++ '.' :: ' ' :: (joinDS (y :: ys)).map lowChar := by
      cases x with
      | nil =>
        show pyCapitalize ('.' :: ' ' :: joinDS (y :: ys)) =
          [] ++ '.' :: ' ' :: (joinDS (y :: ys)).map lowChar
        have hup : upChar '.' = '.' := by decide
        simp [pyCapitalize, hup, lowChar_space]
      | cons c r =>
        show pyCapitalize (c :: (r ++ '.' :: ' ' :: joinDS (y :: ys))) =
          (upChar c :: r.map lowChar) ++
            '.' :: ' ' :: (joinDS (y :: ys)).map lowChar
        simp [pyCapitalize, lowChar_dot, lowChar_space]
    rw [hstep, map_lowChar_joinDS]
    simp only [List.map_cons]
    rw [joinDS_cons2]

theorem map_lowChar_idem (r : Cell) :
    (r.map lowChar).map lowChar = r.map lowChar := by
  rw [List.map_map]
  exact List.map_congr_left (fun a _ => lowChar_lowChar a)

theorem pyCapitalize_idem (s : Cell) :
    pyCapitalize (pyCapitalize s) = pyCapitalize s := by
  cases s with
  | nil => rfl
  | cons c r =>
    simp only [pyCapitalize, upChar_upChar, map_lowChar_idem]

theorem pyCapitalize_map_lowChar_pyCapitalize (y : Cell) :
    pyCapitalize ((pyCapitalize y).map lowChar) = pyCapitalize y := by
  cases y with
  | nil => rfl
  | cons c r =>
    simp only [pyCapitalize, List.map_cons, map_lowChar_idem,
      upChar_lowChar_upChar]

theorem capitalizeCorrect_idem (s : Cell) :
    capitalizeCorrect (capitalizeCorrect s) = capitalizeCorrect s := by
  cases hsegs : splitDS (pyCapitalize s) with
  | nil => exact absurd hsegs (splitDS_ne_nil _)
  | cons s0 rest =>
    have hnosep : ∀ u ∈ s0 :: rest, hasDS u = false := by
      rw [← hsegs]; exact splitDS_no_sep _
    have hcap1 : capitalizeCorrect s =
        joinDS (pyCapitalize s0 :: rest.map pyCapitalize) := by
      rw [capitalizeCorrect, hsegs, List.map_cons]
    rw [hcap1]
    rw [capitalizeCorrect]
    rw [pyCapitalize_joinDS, pyCapitalize_idem]
    have hmm : (rest.map pyCapitalize).map (List.map lowChar) =
        rest.map (fun y => (pyCapitalize y).map lowChar) := by
      rw [List.map_map]; rfl
    rw [hmm]
    have hclean : ∀ u ∈ pyCapitalize s0 ::
        rest.map (fun y => (pyCapitalize y).map lowChar), hasDS u = false := by
      intro u hu
      rcases List.mem_cons.mp hu with h1 | h2
      · subst h1
        rw [hasDS_pyCapitalize]
        exact hnosep s0 (by simp)
      · obtain ⟨y, hy, hyu⟩ := List.mem_map.mp h2
        subst hyu
        rw [hasDS_map_lowChar, hasDS_pyCapitalize]
        exact hnosep y (List.mem_cons_of_mem _ hy)
    rw [splitDS_joinDS (by simp) hclean]
    rw [List.map_cons, pyCapitalize_idem, List.map_map]
    have hmap2 : ∀ y ∈ rest,
        (pyCapitalize ∘ fun y => (pyCapitalize y).map lowChar) y =
          pyCapitalize y := by
      intro y hy
      exact pyCapitalize_map_lowChar_pyCapitalize y
    rw [List.map_congr_left hmap2]

/-! ## Replacement -/

/-- Whether the pattern (second argument) occurs at the head of the
text (first argument). -/
def matchHere : Cell → Cell → Bool
  | _, [] => true
  | [], _ :: _ => false
  | c :: cs, p :: ps => c == p && matchHere cs ps

/-- Greedy left-to-right non-overlapping replacement of every occurrence
of `old` by `new` (the scan of CPython's `str.replace` for a non-empty
`old`; the `old ≠ []` guard only serves termination, `pyReplace` handles
the empty pattern before calling). -/
def replaceFrom (old new : Cell) : Cell → Cell
  | [] => []
  | c :: rest =>
    if old ≠ [] ∧ matchHere (c :: rest) old then
      new ++ replaceFrom old new (rest.drop (old.length - 1))
    else c :: replaceFrom old new rest
termination_by l => l.length
decreasing_by
  · simp only [List.length_cons, List.length_drop]
    omega
  · simp

/-- Python `text.replace(old, new)`: with an empty `old`, `new` is
inserted before every character and once at the end; otherwise every
occurrence of `old` is replaced. -/
def pyReplace (text old new : Cell) : Cell :=
  if old = [] then new ++ text.flatMap (fun c => c :: new)
  else replaceFrom old new text

/-- `Replacement._correct`: the pairs of the insertion-ordered
replacement dict applied sequentially, each pass over the output of the
previous one. -/
def replacementCorrect (replacements : List (Cell × Cell)) (text : Cell) :
    Cell :=
  replacements.foldl (fun t kv => pyReplace t kv.1 kv.2) text

/-! ## SpellCheckTransformer -/

/-- `SpellCheckTransformer.ERROR`. -/
def ERROR : Cell := "__ERROR__".toList

/-- `SpellCheckTransformer._correct`: the first suggestion from the
dictionary, or the error sentinel when the suggestion iterator is
exhausted (`StopIteration`).  The external `phunspell` collaborator is
abstracted as a function giving the optional first suggestion. -/
def spellCorrect (suggest : Cell → Option Cell) (text : Cell) : Cell :=
  match suggest text with
  | some s => s
  | none => ERROR

/-- The per-column body of `SpellCheckTransformer.__call__`: cells after
correction with error-sentinel cells masked back to their original
values, paired with the printed error count `mask.sum()`. -/
def spellCheckColumn (suggest : Cell → Option Cell) (col : List Cell) :
    List Cell × Nat :=
  let corrected := col.map (spellCorrect suggest)
  ((corrected.zip col).map (fun p => if p.1 = ERROR then p.2 else p.1),
   corrected.countP (fun c => c == ERROR))

/-! ## Table-level operations -/

/-- Column names of a table, in order. -/
def colNames (data : Table) : List String := data.map Prod.fst

/-- `data.assign(**changes)`: existing columns are replaced in place by
the change of the same name; change keys that name no existing column
are appended at the end in change order. -/
def assign (data : Table) (changes : List (String × List Cell)) : Table :=
  data.map (fun p =>
    match lookupA p.1 changes with
    | some v => (p.1, v)
    | none => p)
  ++ changes.filter (fun c => !((colNames data).contains c.1))

/-- The shared `__call__` pattern of the cell-wise transformers:
`changes = {column: data[column].apply(f) for column in data.columns}`
then `data.assign(**changes)`. -/
def cellApply (f : Cell → Cell) (data : Table) : Table :=
  assign data (data.map (fun p => (p.1, p.2.map f)))

/-- `SerbianCyrillicToLatinTransformer.__call__`. -/
def serbianCall (data : Table) : Table :=
  cellApply serbianCyrillicToLatin data

/-- `CapitalizeTransformer.__call__`. -/
def capitalizeCall (data : Table) : Table :=
  cellApply capitalizeCorrect data

/-- `Replacement.__call__`. -/
def replacementCall (replacements : List (Cell × Cell)) (data : Table) :
    Table :=
  cellApply (replacementCorrect replacements) data

/-- `SpellCheckTransformer.__call__`: every column corrected and masked;
the per-column error counts are only printed. -/
def spellCheckCall (suggest : Cell → Option Cell) (data : Table) : Table :=
  assign data (data.map (fun p => (p.1, (spellCheckColumn suggest p.2).1)))

/-- `ListTransformer.__call__`: thread the table through the processors
in list order. -/
def listCall (processors : List (Table → Table)) (data : Table) : Table :=
  processors.foldl (fun d p => p d) data

/-- `data[[col]]`: the single-column sub-table (a missing column is a
fatal pandas `KeyError`, outside the claims, so it defaults to empty). -/
def selectCol (data : Table) (col : String) : Table :=
  [(col, (lookupA col data).getD [])]

/-- `Column.__call__`: run the processor on each named single-column
table and assign the values of the resulting (single) column back under
that name. -/
def columnCall (processor : Table → Table) (columns : List String)
    (data : Table) : Table :=
  assign data (columns.map (fun col =>
    (col, ((processor (selectCol data col)).head?.map Prod.snd).getD [])))

/-! ## WordOccurence -/

/-- Python `str.split()` whitespace (the ASCII part). -/
def isWsChar (c : Char) : Bool :=
  c == ' ' || c == '\t' || c == '\n' || c == '\r' || c == '\x0b' || c == '\x0c'

/-- Helper for `splitWs`: pending token being built plus finished
tokens. -/
def splitWsAux : Cell → Cell × List Cell
  | [] => ([], [])
  | c :: rest =>
    let r := splitWsAux rest
    if isWsChar c then ([], if r.1 = [] then r.2 else r.1 :: r.2)
    else (c :: r.1, r.2)

/-- Python `sentence.split()`: maximal whitespace-free runs, empty runs
discarded. -/
def splitWs (l : Cell) : List Cell :=
  let r := splitWsAux l
  if r.1 = [] then r.2 else r.1 :: r.2

/-- Number of rows of a table (all columns are row-aligned). -/
def numRows (data : Table) : Nat :=
  (data.head?.map (fun p => p.2.length)).getD 0

/-- `pd.Series(data.values.flatten())`: all cells in row-major order. -/
def flattenCells (data : Table) : List Cell :=
  (List.range (numRows data)).flatMap
    (fun i => data.filterMap (fun p => p.2[i]?))

/-- `word_count[word] = word_count.get(word, 0) + 1` on an
insertion-ordered dict: increment in place or append a fresh entry. -/
def bump (counts : List (Cell × Nat)) (w : Cell) : List (Cell × Nat) :=
  if (counts.map Prod.fst).contains w then
    counts.map (fun p => if p.1 = w then (p.1, p.2 + 1) else p)
  else counts ++ [(w, 1)]

/-- `WordOccurence._ocurences`: whitespace tokens of every cell of the
table, counted in discovery order. -/
def ocurences (data : Table) : List (Cell × Nat) :=
  ((flattenCells data).flatMap splitWs).foldl bump []

/-- One insertion step of the stable descending sort. -/
def insertDesc (x : Cell × Nat) : List (Cell × Nat) → List (Cell × Nat)
  | [] => [x]
  | y :: ys => if y.2 > x.2 then y :: insertDesc x ys else x :: y :: ys

/-- Python `sorted(..., key=lambda item: item[1], reverse=True)`: stable
descending order by count, ties keeping discovery order. -/
def sortDesc (l : List (Cell × Nat)) : List (Cell × Nat) :=
  l.foldr insertDesc []

/-- The report printed by `WordOccurence.__call__`: counts without the
known-fixed words, most frequent first. -/
def wordOccurenceReport (fixes : List Cell) (data : Table) :
    List (Cell × Nat) :=
  sortDesc ((ocurences data).filter (fun p => !(fixes.contains p.1)))

/-- `WordOccurence.__call__` returns its input table unchanged; the
report is a printed side effect. -/
def wordOccurenceCall (_fixes : List Cell) (data : Table) : Table :=
  data

/-! ## Helper lemmas about the embedded operations -/

theorem spellCheckColumn_cons (suggest : Cell → Option Cell) (x : Cell)
    (xs : List Cell) :
    spellCheckColumn suggest (x :: xs) =
      ((if spellCorrect suggest x = ERROR then x else spellCorrect suggest x)
          :: (spellCheckColumn suggest xs).1,
        (spellCheckColumn suggest xs).2 +
          (if spellCorrect suggest x = ERROR then 1 else 0)) := by
  simp [spellCheckColumn, List.countP_cons]

theorem spellCheckColumn_fst_length (suggest : Cell → Option Cell)
    (col : List Cell) :
    (spellCheckColumn suggest col).1.length = col.length := by
  simp [spellCheckColumn]

theorem spellCheckColumn_fst_get (suggest : Cell → Option Cell) :
    ∀ (col : List Cell) (i : Nat) (hi : i < col.length),
      (spellCheckColumn suggest col).1[i]? =
        some (if spellCorrect suggest (col.get ⟨i, hi⟩) = ERROR
              then col.get ⟨i, hi⟩
              else spellCorrect suggest (col.get ⟨i, hi⟩)) := by
  intro col
  induction col with
  | nil => intro i hi; simp at hi
  | cons x xs ih =>
    intro i hi
    rw [spellCheckColumn_cons]
    cases i with
    | zero => simp
    | succ j =>
      have hj : j < xs.length := by
        simp only [List.length_cons] at hi
        omega
      have hxs := ih j hj
      simpa using hxs

theorem spellCheckColumn_snd_eq (suggest : Cell → Option Cell)
    (col : List Cell) :
    (spellCheckColumn suggest col).2 =
      col.countP
        (fun c => (suggest c).isNone || (suggest c == some ERROR)) := by
  induction col with
  | nil => rfl
  | cons x xs ih =>
    rw [spellCheckColumn_cons, List.countP_cons, ih]
    cases hx : suggest x with
    | none => simp [spellCorrect, hx]
    | some s =>
      by_cases hs : s = ERROR
      · subst hs; simp [spellCorrect, hx]
      · simp [spellCorrect, hx, hs]

theorem spellCorrect_eq_error_of_none {suggest : Cell → Option Cell}
    {c : Cell} (h : suggest c = none) : spellCorrect suggest c = ERROR := by
  simp [spellCorrect, h]

theorem lookupA_of_mem_nodup {β : Type} {k : String} {v : β} :
    ∀ {l : List (String × β)}, (l.map Prod.fst).Nodup → (k, v) ∈ l →
      lookupA k l = some v := by
  intro l
  induction l with
  | nil => intro _ h; simp at h
  | cons p rest ih =>
    intro hnodup hmem
    obtain ⟨a, b⟩ := p
    rcases List.mem_cons.mp hmem with h1 | h2
    · injection h1 with e1 e2
      subst e1; subst e2
      simp [lookupA]
    · have hak : a ≠ k := by
        intro he
        subst he
        have : a ∈ rest.map Prod.fst :=
          List.mem_map.mpr ⟨(a, v), h2, rfl⟩
        simp only [List.map_cons, List.nodup_cons] at hnodup
        exact hnodup.1 this
      simp only [lookupA, hak, if_false]
      exact ih (by simpa using hnodup.of_cons) h2

theorem lookupA_map_keys_eq_none {β : Type} {k : String}
    (g : String → β) :
    ∀ {keys : List String}, k ∉ keys →
      lookupA k (keys.map (fun c => (c, g c))) = none := by
  intro keys
  induction keys with
  | nil => intro _; rfl
  | cons a rest ih =>
    intro hk
    have hak : a ≠ k := by
      intro he; subst he; exact hk (by simp)
    simp only [List.map_cons, lookupA, hak, if_false]
    exact ih (fun hmem => hk (List.mem_cons_of_mem _ hmem))

theorem lookupA_map_keys_eq_some {β : Type} {k : String}
    (g : String → β) :
    ∀ {keys : List String}, k ∈ keys →
      lookupA k (keys.map (fun c => (c, g c))) = some (g k) := by
  intro keys
  induction keys with
  | nil => intro h; simp at h
  | cons a rest ih =>
    intro hk
    by_cases hak : a = k
    · subst hak
      simp [lookupA]
    · simp only [List.map_cons, lookupA, hak, if_false]
      rcases List.mem_cons.mp hk with h1 | h2
      · exact absurd h1.symm hak
      · exact ih h2

/-- Same column names in order and same per-column cell counts. -/
def sameShape (t u : Table) : Prop :=
  colNames t = colNames u ∧
    t.map (fun p => p.2.length) = u.map (fun p => p.2.length)

theorem sameShape_refl (t : Table) : sameShape t t :=
  ⟨rfl, rfl⟩

theorem sameShape_trans {t u w : Table} (h1 : sameShape t u)
    (h2 : sameShape u w) : sameShape t w :=
  ⟨h1.1.trans h2.1, h1.2.trans h2.2⟩

theorem assign_append_nil (data : Table)
    {changes : List (String × List Cell)}
    (h : ∀ c ∈ changes, c.1 ∈ colNames data) :
    changes.filter (fun c => !((colNames data).contains c.1)) = [] := by
  refine List.filter_eq_nil_iff.mpr ?_
  intro c hc
  have hmem := h c hc
  simp [hmem]

theorem assign_self_map (v : String × List Cell → List Cell) (data : Table)
    (h : (colNames data).Nodup) :
    assign data (data.map (fun p => (p.1, v p))) =
      data.map (fun p => (p.1, v p)) := by
  unfold assign
  rw [assign_append_nil data (by
    intro c hc
    obtain ⟨p, hp, hpc⟩ := List.mem_map.mp hc
    subst hpc
    exact List.mem_map.mpr ⟨p, hp, rfl⟩)]
  rw [List.append_nil]
  refine List.map_congr_left ?_
  intro p hp
  have hlook : lookupA p.1 (data.map (fun q => (q.1, v q))) = some (v p) := by
    apply lookupA_of_mem_nodup
    · rw [List.map_map]
      exact h
    · exact List.mem_map.mpr ⟨p, hp, rfl⟩
  rw [hlook]

theorem lookupA_map_keys_some_inv {β : Type} (g : String → β) :
    ∀ {keys : List String} {k : String} {v : β},
      lookupA k (keys.map (fun c => (c, g c))) = some v → v = g k := by
  intro keys
  induction keys with
  | nil => intro k v h; simp [lookupA] at h
  | cons a rest ih =>
    intro k v h
    by_cases hak : a = k
    · subst hak
      simp [lookupA] at h
      exact h.symm
    · simp only [List.map_cons, lookupA, hak, if_false] at h
      exact ih h

theorem assign_sameShape (data : Table) {changes : List (String × List Cell)}
    (hkeys : ∀ c ∈ changes, c.1 ∈ colNames data)
    (hlen : ∀ p ∈ data, ∀ v, lookupA p.1 changes = some v →
      v.length = p.2.length) :
    sameShape data (assign data changes) := by
  unfold assign
  rw [assign_append_nil data hkeys, List.append_nil]
  constructor
  · unfold colNames
    rw [List.map_map]
    refine (List.map_congr_left ?_).symm
    intro p hp
    cases hl : lookupA p.1 changes <;> simp [hl]
  · rw [List.map_map]
    refine (List.map_congr_left ?_).symm
    intro p hp
    cases hl : lookupA p.1 changes with
    | none => simp [hl]
    | some v => simp [hl, hlen p hp v hl]

theorem cellApply_sameShape (f : Cell → Cell) (data : Table)
    (h : (colNames data).Nodup) : sameShape data (cellApply f data) := by
  unfold cellApply
  refine assign_sameShape data ?_ ?_
  · intro c hc
    obtain ⟨p, hp, hpc⟩ := List.mem_map.mp hc
    subst hpc
    exact List.mem_map.mpr ⟨p, hp, rfl⟩
  · intro p hp v hl
    have hlook : lookupA p.1 (data.map (fun q => (q.1, q.2.map f))) =
        some (p.2.map f) := by
      apply lookupA_of_mem_nodup
      · rw [List.map_map]; exact h
      · exact List.mem_map.mpr ⟨p, hp, rfl⟩
    rw [hlook] at hl
    injection hl with he
    subst he
    simp

theorem spellCheckCall_sameShape (suggest : Cell → Option Cell)
    (data : Table) (h : (colNames data).Nodup) :
    sameShape data (spellCheckCall suggest data) := by
  unfold spellCheckCall
  refine assign_sameShape data ?_ ?_
  · intro c hc
    obtain ⟨p, hp, hpc⟩ := List.mem_map.mp hc
    subst hpc
    exact List.mem_map.mpr ⟨p, hp, rfl⟩
  · intro p hp v hl
    have hlook : lookupA p.1
        (data.map (fun q => (q.1, (spellCheckColumn suggest q.2).1))) =
        some ((spellCheckColumn suggest p.2).1) := by
      apply lookupA_of_mem_nodup
      · rw [List.map_map]; exact h
      · exact List.mem_map.mpr ⟨p, hp, rfl⟩
    rw [hlook] at hl
    injection hl with he
    subst he
    exact spellCheckColumn_fst_length suggest p.2

theorem listCall_sameShape (processors : List (Table → Table))
    (hall : ∀ p ∈ processors, ∀ u : Table, sameShape u (p u)) :
    ∀ data : Table, sameShape data (listCall processors data) := by
  induction processors with
  | nil => intro data; exact sameShape_refl data
  | cons p ps ih =>
    intro data
    have hstep : listCall (p :: ps) data = listCall ps (p data) := rfl
    rw [hstep]
    refine sameShape_trans (hall p (by simp) data) ?_
    exact ih (fun q hq => hall q (List.mem_cons_of_mem _ hq)) (p data)

theorem single_col_shape {t : Table} {name : String} {vals : List Cell}
    (h : sameShape [(name, vals)] t) :
    ((t.head?.map Prod.snd).getD []).length = vals.length := by
  obtain ⟨h1, h2⟩ := h
  cases t with
  | nil => simp [colNames] at h1
  | cons q rest =>
    cases rest with
    | nil =>
      simp only [List.map_cons, List.map_nil, List.cons.injEq] at h2
      simp [h2.1.symm]
    | cons q2 r2 => simp [colNames] at h1

theorem selectCol_eq_single {data : Table} {name : String}
    {vals : List Cell} (h : (colNames data).Nodup)
    (hp : (name, vals) ∈ data) :
    selectCol data name = [(name, vals)] := by
  unfold selectCol
  rw [lookupA_of_mem_nodup h hp]
  rfl

theorem columnCall_sameShape (processor : Table → Table)
    (columns : List String) (data : Table)
    (hnodup : (colNames data).Nodup)
    (hproc : ∀ u : Table, sameShape u (processor u))
    (hsub : ∀ c ∈ columns, c ∈ colNames data) :
    sameShape data (columnCall processor columns data) := by
  unfold columnCall
  refine assign_sameShape data ?_ ?_
  · intro c hc
    obtain ⟨col, hcol, hcc⟩ := List.mem_map.mp hc
    subst hcc
    exact hsub col hcol
  · intro p hp v hl
    obtain ⟨n, vals⟩ := p
    dsimp only at hl ⊢
    have hv : v =
        ((processor (selectCol data n)).head?.map Prod.snd).getD [] :=
      lookupA_map_keys_some_inv _ hl
    subst hv
    rw [selectCol_eq_single hnodup hp]
    exact single_col_shape (hproc [(n, vals)])


theorem columnCall_getElem_unscoped (processor : Table → Table)
    (columns : List String) (data : Table) (i : Nat) (hi : i < data.length)
    (hout : (data.get ⟨i, hi⟩).1 ∉ columns) :
    (columnCall processor columns data)[i]? = some (data.get ⟨i, hi⟩) := by
  unfold columnCall assign
  rw [List.getElem?_append_left (by simpa using hi), List.getElem?_map,
    List.getElem?_eq_getElem hi]
  have hnone : lookupA (data.get ⟨i, hi⟩).1
      (columns.map (fun col =>
        (col, ((processor (selectCol data col)).head?.map Prod.snd).getD []))) =
      none :=
    lookupA_map_keys_eq_none _ hout
  rw [List.get_eq_getElem] at hnone
  simp [hnone, List.get_eq_getElem]

theorem columnCall_getElem_scoped (processor : Table → Table)
    (columns : List String) (data : Table) (i : Nat) (hi : i < data.length)
    (hnodup : (colNames data).Nodup)
    (hin : (data.get ⟨i, hi⟩).1 ∈ columns) :
    (columnCall processor columns data)[i]? =
      some ((data.get ⟨i, hi⟩).1,
        ((processor [data.get ⟨i, hi⟩]).head?.map Prod.snd).getD []) := by
  unfold columnCall assign
  rw [List.getElem?_append_left (by simpa using hi), List.getElem?_map,
    List.getElem?_eq_getElem hi]
  have hsome : lookupA (data.get ⟨i, hi⟩).1
      (columns.map (fun col =>
        (col, ((processor (selectCol data col)).head?.map Prod.snd).getD []))) =
      some (((processor
        (selectCol data (data.get ⟨i, hi⟩).1)).head?.map Prod.snd).getD []) :=
    lookupA_map_keys_eq_some _ hin
  have hsel : selectCol data (data.get ⟨i, hi⟩).1 = [data.get ⟨i, hi⟩] := by
    have hmem : data.get ⟨i, hi⟩ ∈ data := List.get_mem data i hi
    have h2 := @selectCol_eq_single data (data.get ⟨i, hi⟩).1
      (data.get ⟨i, hi⟩).2 hnodup (by exact hmem)
    simpa using h2
  rw [hsel] at hsome
  rw [List.get_eq_getElem] at hsome
  simp [hsome, List.get_eq_getElem]

/-! ## Claims -/

/-- The capitalization rule as the specification words it: capitalize
the first letter of a text, lower-casing the rest. -/
def capFirstSpec : Cell → Cell
  | [] => []
  | c :: r => upChar c :: r.map lowChar

/-- The capitalization transform as the specification words it:
capitalize the first letter of the whole text and lower-case the rest,
split on `". "`, capitalize the first letter of each segment
(lower-casing the segment remainder), and rejoin with `". "`. -/
def capitalizeSpec (text : Cell) : Cell :=
  joinDS ((splitDS (capFirstSpec text)).map capFirstSpec)

/-- C2: transliteration then capitalization maps the cell
"њујорк је велик." to exactly "Njujork je velik."; transliteration maps
each character through the fixed Cyrillic-to-Latin table, with the
multi-character expansions љ→"lj", њ→"nj", џ→"dž" and their case pairs
Љ→"Lj", Њ→"Nj", Џ→"Dž", and leaves every character outside the table
unchanged. -/
theorem claim_C2 (text : Cell) (c : Char)
    (h : lookupA c cyrillicToLatin = none) :
    capitalizeCorrect (serbianCyrillicToLatin "њујорк је велик.".toList) =
        "Njujork je velik.".toList ∧
      serbianCyrillicToLatin text = text.flatMap translitChar ∧
      translitChar c = [c] ∧
      (translitChar 'љ' = "lj".toList ∧ translitChar 'њ' = "nj".toList ∧
        translitChar 'џ' = "dž".toList) ∧
      (translitChar 'Љ' = "Lj".toList ∧ translitChar 'Њ' = "Nj".toList ∧
        translitChar 'Џ' = "Dž".toList) :=
  ⟨by decide, rfl, translitChar_of_none h, by decide, by decide⟩

theorem claim_C2_witness :
    lookupA 'w' cyrillicToLatin = none ∧ translitChar 'w' = ['w'] :=
  ⟨by decide, (claim_C2 [] 'w' (by decide)).2.2.1⟩

/-- C3: transliteration is idempotent, and it returns unchanged any text
none of whose characters is a key of the Cyrillic lookup table. -/
theorem claim_C3 (text latin : Cell)
    (h : ∀ c ∈ latin, lookupA c cyrillicToLatin = none) :
    serbianCyrillicToLatin (serbianCyrillicToLatin text) =
        serbianCyrillicToLatin text ∧
      serbianCyrillicToLatin latin = latin :=
  ⟨serbianCyrillicToLatin_idem text, serbianCyrillicToLatin_of_no_keys h⟩

theorem claim_C3_witness :
    serbianCyrillicToLatin (serbianCyrillicToLatin "џак".toList) =
        serbianCyrillicToLatin "џак".toList ∧
      serbianCyrillicToLatin "abc".toList = "abc".toList :=
  claim_C3 "џак".toList "abc".toList (by decide)

/-- C4: the capitalization transform equals the reference computation of
the specification (capitalize the whole text, split on ". ", capitalize
each segment, rejoin); capitalizing the empty segment produced by a
trailing period is a no-op and the transform is total on such inputs. -/
theorem claim_C4 (s : Cell) :
    capitalizeCorrect s = capitalizeSpec s ∧
      pyCapitalize [] = [] ∧
      splitDS "A. ".toList = ["A".toList, []] ∧
      capitalizeCorrect "a. ".toList = "A. ".toList ∧
      capitalizeCorrect "x.. y".toList = "X.. Y".toList := by
  refine ⟨?_, rfl, by decide, by decide, by decide⟩
  have hfun : capFirstSpec = pyCapitalize :=
    funext (fun t => by cases t <;> rfl)
  show joinDS ((splitDS (pyCapitalize s)).map pyCapitalize) =
    joinDS ((splitDS (capFirstSpec s)).map capFirstSpec)
  rw [hfun]

/-- C5: the capitalization transform is idempotent (proved for every
input, hence in particular for single-sentence inputs), with the
specification's example "hello. world". -/
theorem claim_C5 (s : Cell) :
    capitalizeCorrect "hello. world".toList = "Hello. World".toList ∧
      capitalizeCorrect (capitalizeCorrect s) = capitalizeCorrect s :=
  ⟨by decide, capitalizeCorrect_idem s⟩

/-- C6: literal replacement applies its ordered pairs sequentially, each
pass over the previous pass's output and replacing all occurrences,
matching case-sensitively; the empty mapping is the identity. -/
theorem claim_C6 (text : Cell) :
    replacementCorrect [] text = text ∧
      replacementCorrect [("a".toList, "b".toList), ("b".toList, "c".toList)]
        "a".toList = "c".toList ∧
      replacementCorrect [("a".toList, "b".toList)] "aa".toList =
        "bb".toList ∧
      replacementCorrect [("aa".toList, "b".toList)] "aaa".toList =
        "ba".toList ∧
      replacementCorrect [("a".toList, "b".toList)] "A".toList =
        "A".toList :=
  ⟨rfl, by simp [replacementCorrect, pyReplace, replaceFrom, matchHere],
    by simp [replacementCorrect, pyReplace, replaceFrom, matchHere],
    by simp [replacementCorrect, pyReplace, replaceFrom, matchHere],
    by simp [replacementCorrect, pyReplace, replaceFrom, matchHere]⟩

/-- C8: word-frequency reporting over the table [["a b", "b c"]] yields
counts b:2, a:1, c:1 ordered most frequent first with ties in discovery
order, the exclusion set {"b"} removes b, and the transformer returns
its input table unchanged. -/
theorem claim_C8 (fixes : List Cell) (data : Table) :
    wordOccurenceReport [] [("c", ["a b".toList, "b c".toList])] =
        [("b".toList, 2), ("a".toList, 1), ("c".toList, 1)] ∧
      wordOccurenceReport ["b".toList] [("c", ["a b".toList, "b c".toList])] =
        [("a".toList, 1), ("c".toList, 1)] ∧
      wordOccurenceCall fixes data = data :=
  ⟨by decide, by decide, rfl⟩

/-- A suggestion source whose first suggestion is the literal sentinel
string, exhibiting the in-band collision. -/
def sentinelSuggest : Cell → Option Cell := fun _ => some ERROR

/-- C1 counterexample: on a column whose (existing) first suggestion is
the literal string "__ERROR__", the reported error count (1) differs
from the number of cells for which the source yields no suggestion
(0), so the count clause of the claim fails as stated. -/
theorem claim_C1_counterexample :
    (spellCheckColumn sentinelSuggest ["ab".toList]).2 ≠
      ["ab".toList].countP (fun c => (sentinelSuggest c).isNone) := by
  decide

/-- C1 (amended): provided no suggestion is itself the literal sentinel
"__ERROR__", the transformer maps every no-suggestion cell back to its
original value, reports exactly the number of no-suggestion cells as
the column error count, and always returns a column of the input's
length. -/
theorem claim_C1 (suggest : Cell → Option Cell) (col : List Cell) (i : Nat)
    (hi : i < col.length)
    (hnone : suggest (col.get ⟨i, hi⟩) = none)
    (hclean : ∀ c ∈ col, suggest c ≠ some ERROR) :
    (spellCheckColumn suggest col).1.length = col.length ∧
      (spellCheckColumn suggest col).1[i]? = some (col.get ⟨i, hi⟩) ∧
      (spellCheckColumn suggest col).2 =
        col.countP (fun c => (suggest c).isNone) := by
  refine ⟨spellCheckColumn_fst_length suggest col, ?_, ?_⟩
  · rw [spellCheckColumn_fst_get suggest col i hi]
    rw [spellCorrect_eq_error_of_none hnone]
    simp
  · rw [spellCheckColumn_snd_eq]
    refine List.countP_congr ?_
    intro c hc
    cases hsug : suggest c with
    | none => simp [hsug]
    | some s =>
      have hne : s ≠ ERROR := by
        intro he
        subst he
        exact hclean c hc hsug
      simp [hsug, hne]

/-- A suggestion source with no suggestion for exactly one cell. -/
def oneNoneSuggest : Cell → Option Cell :=
  fun c => if c = "xx".toList then none else some "y".toList

theorem claim_C1_witness :
    (spellCheckColumn oneNoneSuggest ["xx".toList]).1[0]? =
        some "xx".toList ∧
      (spellCheckColumn oneNoneSuggest ["xx".toList]).2 = 1 := by
  have h := claim_C1 oneNoneSuggest ["xx".toList] 0 (by decide) (by decide)
    (by decide)
  exact ⟨h.2.1.trans (by decide), h.2.2.trans (by decide)⟩

/-- C10: the error sentinel is in-band: a cell whose first suggestion is
the literal string "__ERROR__" is masked back to its original value and
counted as an error; the reported count is exactly the number of cells
whose suggestion is missing or literally the sentinel. -/
theorem claim_C10 (suggest : Cell → Option Cell) (col : List Cell) (i : Nat)
    (hi : i < col.length)
    (herr : suggest (col.get ⟨i, hi⟩) = some ERROR) :
    (spellCheckColumn suggest col).1[i]? = some (col.get ⟨i, hi⟩) ∧
      1 ≤ (spellCheckColumn suggest col).2 ∧
      (spellCheckColumn suggest col).2 =
        col.countP
          (fun c => (suggest c).isNone || (suggest c == some ERROR)) := by
  rw [List.get_eq_getElem] at herr
  have hsc : spellCorrect suggest col[i] = ERROR := by
    simp [spellCorrect, herr]
  refine ⟨?_, ?_, spellCheckColumn_snd_eq suggest col⟩
  · rw [spellCheckColumn_fst_get suggest col i hi]
    simp only [List.get_eq_getElem]
    simp [hsc]
  · rw [spellCheckColumn_snd_eq]
    have hmem : col[i] ∈ col := List.getElem_mem hi
    have hpos : 0 < col.countP
        (fun c => (suggest c).isNone || (suggest c == some ERROR)) := by
      refine List.countP_pos_iff.mpr ⟨col[i], hmem, ?_⟩
      simp [herr]
    omega

theorem claim_C10_witness :
    (spellCheckColumn sentinelSuggest ["ab".toList]).1[0]? =
        some "ab".toList ∧
      1 ≤ (spellCheckColumn sentinelSuggest ["ab".toList]).2 := by
  have h := claim_C10 sentinelSuggest ["ab".toList] 0 (by decide) (by decide)
  exact ⟨h.1.trans (by decide), h.2.1⟩

/-- C7: column scoping leaves every column whose name is outside the
scoped set byte-identical in place, and replaces every scoped column by
the (single) column of the inner transformer applied to the one-column
table built from it. -/
theorem claim_C7 (processor : Table → Table) (columns : List String)
    (data : Table) (hnodup : (colNames data).Nodup) :
    (∀ i : Nat, ∀ hi : i < data.length, (data.get ⟨i, hi⟩).1 ∉ columns →
        (columnCall processor columns data)[i]? =
          some (data.get ⟨i, hi⟩)) ∧
      (∀ i : Nat, ∀ hi : i < data.length, (data.get ⟨i, hi⟩).1 ∈ columns →
        (columnCall processor columns data)[i]? =
          some ((data.get ⟨i, hi⟩).1,
            ((processor [data.get ⟨i, hi⟩]).head?.map Prod.snd).getD [])) :=
  ⟨fun i hi hout =>
      columnCall_getElem_unscoped processor columns data i hi hout,
    fun i hi hin =>
      columnCall_getElem_scoped processor columns data i hi hnodup hin⟩

/-- Input table of the column-scoping witness. -/
def claimC7Data : Table :=
  [("question", ["аб".toList]), ("answer", ["вг".toList])]

theorem claim_C7_witness :
    (columnCall serbianCall ["answer"] claimC7Data)[0]? =
        some ("question", ["аб".toList]) ∧
      (columnCall serbianCall ["answer"] claimC7Data)[1]? =
        some ("answer", ["vg".toList]) := by
  have h := claim_C7 serbianCall ["answer"] claimC7Data (by decide)
  exact ⟨(h.1 0 (by decide) (by decide)).trans (by decide),
    (h.2 1 (by decide) (by decide)).trans (by decide)⟩

/-- C9: every transformer of the system (transliteration, literal
replacement, capitalization, spell-correction, word-frequency, chain,
and column scoping) returns a table with the same column names and the
same per-column row counts as its input, the chained and scoped cases
under the hypothesis that their inner transformers do. -/
theorem claim_C9 (data : Table) (replacements : List (Cell × Cell))
    (suggest : Cell → Option Cell) (fixes : List Cell)
    (processors : List (Table → Table)) (processor : Table → Table)
    (columns : List String)
    (hnodup : (colNames data).Nodup)
    (hchain : ∀ p ∈ processors, ∀ u : Table, sameShape u (p u))
    (hproc : ∀ u : Table, sameShape u (processor u))
    (hsub : ∀ c ∈ columns, c ∈ colNames data) :
    sameShape data (serbianCall data) ∧
      sameShape data (replacementCall replacements data) ∧
      sameShape data (capitalizeCall data) ∧
      sameShape data (spellCheckCall suggest data) ∧
      sameShape data (wordOccurenceCall fixes data) ∧
      sameShape data (listCall processors data) ∧
      sameShape data (columnCall processor columns data) :=
  ⟨cellApply_sameShape serbianCyrillicToLatin data hnodup,
    cellApply_sameShape (replacementCorrect replacements) data hnodup,
    cellApply_sameShape capitalizeCorrect data hnodup,
    spellCheckCall_sameShape suggest data hnodup,
    sameShape_refl data,
    listCall_sameShape processors hchain data,
    columnCall_sameShape processor columns data hnodup hproc hsub⟩

/-- Input table of the shape witness. -/
def claimC9Data : Table :=
  [("question", ["a".toList]), ("answer", ["b".toList])]

theorem claim_C9_witness :
    sameShape claimC9Data (serbianCall claimC9Data) ∧
      sameShape claimC9Data (columnCall id ["answer"] claimC9Data) := by
  have h := claim_C9 claimC9Data [] (fun _ => none) [] [] id ["answer"]
    (by decide) (by simp) (fun u => sameShape_refl u) (by decide)
  exact ⟨h.1, h.2.2.2.2.2.2⟩
